import Mathlib

/-!
Verification of the dsplit edge-detection pipeline (src/main.rs).

The `f32` grid values of the program are modelled as rationals `ℚ`.  The
pipeline only ever compares grid values against the constants `0.0025` and
`1.0`, writes the constants `0.0` / `1.0`, and divides squared distances by
`10000`; on these operations the ordered field `ℚ` models the float
behaviour the claims speak about faithfully.
-/

namespace Dsplit

/-- Direction of a detected line (src/main.rs, `enum Direction`). -/
inductive Direction where
  | Horizontal
  | Vertical
deriving DecidableEq

/-- A detected line segment (src/main.rs, `struct Line`): direction, origin
`(x, y)` and length. -/
structure Line where
  dir : Direction
  x : Nat
  y : Nat
  len : Nat
deriving DecidableEq

/-- A dense 2-D grid of values (the `grid::Grid<f32>` used by main.rs), with
its recorded dimensions and the row-major data. -/
structure Grid where
  rows : Nat
  cols : Nat
  data : List (List ℚ)
deriving DecidableEq

/-- Well-formedness: the row-major data agrees with the recorded dimensions
(this always holds for a `grid::Grid`). -/
def Grid.WF (g : Grid) : Prop :=
  g.data.length = g.rows ∧ ∀ row ∈ g.data, row.length = g.cols

instance (g : Grid) : Decidable g.WF := by
  unfold Grid.WF; infer_instance

/-- The value stored at row `r`, column `c`. -/
def Grid.cell (g : Grid) (r c : Nat) : ℚ := (g.data.getD r []).getD c 0

/-- The values of column `c` from top to bottom (`Grid::iter_col`). -/
def Grid.colVals (g : Grid) (c : Nat) : List ℚ := g.data.map (fun row => row.getD c 0)

/-- The values of row `r` from left to right (`Grid::iter_row`). -/
def Grid.rowVals (g : Grid) (r : Nat) : List ℚ := g.data.getD r []

/-- Replace every value by `f` of it: the effect of `iter_mut().for_each`
with `*v = f(*v)` on a grid. -/
def Grid.mapVals (g : Grid) (f : ℚ → ℚ) : Grid := ⟨g.rows, g.cols, g.data.map (List.map f)⟩

/-- The `struct GridPair(Grid<f32>, Grid<f32>)` of main.rs: first the
column-difference grid, then the row-difference grid. -/
abbrev GridPair := Grid × Grid

/-- `GridPair::filter`: apply the same mutation to every value of both
grids (main.rs lines 35-38). -/
def GridPair.filter (gp : GridPair) (f : ℚ → ℚ) : GridPair :=
  (gp.1.mapVals f, gp.2.mapVals f)

/-- The binarization closure main.rs line 238 passes to `GridPair::filter`:
`*value = if *value > 0.0025 { 1. } else { 0. }`.  Note the strict `>`. -/
def thresholdStep (v : ℚ) : ℚ := if v > 0.0025 then 1 else 0

/-- `grid_pair.filter(...)` as called from `main` (main.rs line 238). -/
def applyThreshold (gp : GridPair) : GridPair := GridPair.filter gp thresholdStep

/-- `<Vec<Line> as Lines>::discard_shorter_than` (main.rs lines 101-114):
keep exactly the lines with `line.len >= size`. -/
def discard_shorter_than (lines : List Line) (size : Nat) : List Line :=
  lines.filter (fun line => size ≤ line.len)

/-! ### Basic lemmas about the threshold step -/

lemma thresholdStep_thresholdStep (v : ℚ) : thresholdStep (thresholdStep v) = thresholdStep v := by
  unfold thresholdStep
  by_cases h : v > 0.0025 <;> simp [h] <;> norm_num

lemma getD_map_val (row : List ℚ) (f : ℚ → ℚ) (hf : f 0 = 0) (c : Nat) :
    (row.map f).getD c 0 = f (row.getD c 0) := by
  induction row generalizing c with
  | nil => simp [List.getD, hf]
  | cons v vs ih =>
    cases c with
    | zero => simp
    | succ c => simpa using ih c

lemma getD_map_nested (d : List (List ℚ)) (f : ℚ → ℚ) (hf : f 0 = 0) (r c : Nat) :
    ((d.map (List.map f)).getD r []).getD c 0 = f ((d.getD r []).getD c 0) := by
  induction d generalizing r with
  | nil => simp [List.getD, hf]
  | cons row rest ih =>
    cases r with
    | zero => simpa using getD_map_val row f hf c
    | succ r => simpa using ih r

/-! ### Claim C2 -/

/-- A one-cell grid pair whose only value is exactly the cutoff `0.0025`. -/
def cutoffPair : GridPair := (⟨1, 1, [[0.0025]]⟩, ⟨1, 1, [[0.0025]]⟩)

/-- C2 counterexample: a cell whose value equals exactly the cutoff `0.0025`
is mapped to `0.0` by the program's thresholding, not to `1.0` as the claim
(`v >= T` becomes `1.0`) requires. -/
theorem cutoff_cell_becomes_zero :
    Grid.cell (applyThreshold cutoffPair).1 0 0 = 0 ∧
    Grid.cell (applyThreshold cutoffPair).2 0 0 = 0 ∧ (0 : ℚ) ≠ 1 := by
  refine ⟨?_, ?_, by norm_num⟩ <;>
    simp [cutoffPair, applyThreshold, GridPair.filter, Grid.mapVals, Grid.cell,
      thresholdStep]

/-- C2 (amended): the thresholder replaces every value `v` of either grid
with `1.0` if `v > T` and with `0.0` otherwise, where `T = 0.0025`, applied
identically and independently to both grids; a cell whose value equals
exactly `T` becomes `0.0`. -/
theorem applyThreshold_cell (gp : GridPair) (r c : Nat) :
    ((applyThreshold gp).1.cell r c = thresholdStep (gp.1.cell r c) ∧
     (applyThreshold gp).2.cell r c = thresholdStep (gp.2.cell r c)) ∧
    thresholdStep 0.0025 = 0 ∧
    ∀ v : ℚ, (0.0025 < v → thresholdStep v = 1) ∧ (v ≤ 0.0025 → thresholdStep v = 0) := by
  refine ⟨⟨?_, ?_⟩, ?_, fun v => ⟨fun h => ?_, fun h => ?_⟩⟩
  · exact getD_map_nested gp.1.data thresholdStep (by norm_num [thresholdStep]) r c
  · exact getD_map_nested gp.2.data thresholdStep (by norm_num [thresholdStep]) r c
  · norm_num [thresholdStep]
  · simp [thresholdStep, h]
  · simp [thresholdStep, not_lt.mpr h]

/-- C2 witness: the amended behaviour evaluated at concrete values. -/
theorem applyThreshold_cell_witness :
    thresholdStep 1 = 1 ∧ thresholdStep 0.001 = 0 := by
  have h := applyThreshold_cell cutoffPair 0 0
  exact ⟨(h.2.2 1).1 (by norm_num), (h.2.2 0.001).2 (by norm_num)⟩

/-! ### Claim C8 -/

/-- C8: applying the thresholder twice yields the same grid pair as applying
it once, and the values `0.0` and `1.0` are fixed points of the thresholding
map. -/
theorem applyThreshold_idem (gp : GridPair) :
    applyThreshold (applyThreshold gp) = applyThreshold gp ∧
    thresholdStep 0 = 0 ∧ thresholdStep 1 = 1 := by
  refine ⟨?_, by norm_num [thresholdStep], by norm_num [thresholdStep]⟩
  have hcomp : ∀ d : List (List ℚ),
      (d.map (List.map thresholdStep)).map (List.map thresholdStep) =
        d.map (List.map thresholdStep) := by
    intro d
    rw [List.map_map]
    refine List.map_congr_left fun row _ => ?_
    simp only [Function.comp_apply, List.map_map]
    exact List.map_congr_left fun v _ => thresholdStep_thresholdStep v
  unfold applyThreshold GridPair.filter Grid.mapVals
  rw [hcomp gp.1.data, hcomp gp.2.data]

/-! ### Claim C5 -/

/-- C5: the segment filter returns a sublist of its input (relative order
preserved, survivors unmodified) containing exactly the segments of length
at least `L`; a segment of length `L` survives, one of length `L - 1` is
dropped, and one of length `L + 1` survives untouched. -/
theorem discard_shorter_than_spec (ls : List Line) (L : Nat) :
    (discard_shorter_than ls L).Sublist ls ∧
    (∀ x, x ∈ discard_shorter_than ls L ↔ x ∈ ls ∧ L ≤ x.len) ∧
    (∀ x ∈ ls, x.len = L → x ∈ discard_shorter_than ls L) ∧
    (1 ≤ L → ∀ x ∈ ls, x.len = L - 1 → x ∉ discard_shorter_than ls L) ∧
    (∀ x ∈ ls, x.len = L + 1 → x ∈ discard_shorter_than ls L) := by
  have hmem : ∀ x, x ∈ discard_shorter_than ls L ↔ x ∈ ls ∧ L ≤ x.len := by
    intro x
    simp [discard_shorter_than, List.mem_filter]
  refine ⟨List.filter_sublist ls, hmem, ?_, ?_, ?_⟩
  · intro x hx hlen
    exact (hmem x).mpr ⟨hx, by omega⟩
  · intro hL x hx hlen hmem'
    have := ((hmem x).mp hmem').2
    omega
  · intro x hx hlen
    exact (hmem x).mpr ⟨hx, by omega⟩

/-- C5 witness: with minimum length 20, a segment of length 20 survives, one
of length 19 is dropped, one of length 21 survives. -/
theorem discard_shorter_than_spec_witness :
    (⟨Direction.Horizontal, 0, 0, 20⟩ : Line) ∈
      discard_shorter_than
        [⟨Direction.Horizontal, 0, 0, 20⟩, ⟨Direction.Horizontal, 0, 1, 19⟩,
         ⟨Direction.Horizontal, 0, 2, 21⟩] 20 ∧
    (⟨Direction.Horizontal, 0, 1, 19⟩ : Line) ∉
      discard_shorter_than
        [⟨Direction.Horizontal, 0, 0, 20⟩, ⟨Direction.Horizontal, 0, 1, 19⟩,
         ⟨Direction.Horizontal, 0, 2, 21⟩] 20 ∧
    (⟨Direction.Horizontal, 0, 2, 21⟩ : Line) ∈
      discard_shorter_than
        [⟨Direction.Horizontal, 0, 0, 20⟩, ⟨Direction.Horizontal, 0, 1, 19⟩,
         ⟨Direction.Horizontal, 0, 2, 21⟩] 20 := by
  have h := discard_shorter_than_spec
    [⟨Direction.Horizontal, 0, 0, 20⟩, ⟨Direction.Horizontal, 0, 1, 19⟩,
     ⟨Direction.Horizontal, 0, 2, 21⟩] 20
  refine ⟨h.2.2.1 _ (by simp) rfl, h.2.2.2.1 (by norm_num) _ (by simp) rfl,
    h.2.2.2.2 _ (by simp) rfl⟩

/-! ### Line extraction (main.rs `GridPair::lines`, lines 40-90) -/

/-- The per-scan-line state machine of `GridPair::lines`: `idx` is the index
of the cell under inspection, the `Option Nat` argument is the Rust `start`
variable (`none` = idle, `some s` = in a run since index `s`), and the list
holds the remaining cells of the scan line.  On `*val >= 1.` while idle the
run starts at the current index; on `*val < 1.` while in a run the pair
`(start_idx, idx - start_idx)` is emitted; a run still open when the scan
line ends is dropped. -/
def runScan : Nat → Option Nat → List ℚ → List (Nat × Nat)
  | _, _, [] => []
  | idx, none, v :: vs =>
    if 1 ≤ v then runScan (idx + 1) (some idx) vs
    else runScan (idx + 1) none vs
  | idx, some s, v :: vs =>
    if v < 1 then (s, idx - s) :: runScan (idx + 1) none vs
    else runScan (idx + 1) (some s) vs

lemma runScan_nil (idx : Nat) (st : Option Nat) : runScan idx st [] = [] := by
  cases st <;> rfl

lemma runScan_cons_none (idx : Nat) (v : ℚ) (vs : List ℚ) :
    runScan idx none (v :: vs) =
      if 1 ≤ v then runScan (idx + 1) (some idx) vs
      else runScan (idx + 1) none vs := rfl

lemma runScan_cons_some (idx s : Nat) (v : ℚ) (vs : List ℚ) :
    runScan idx (some s) (v :: vs) =
      if v < 1 then (s, idx - s) :: runScan (idx + 1) none vs
      else runScan (idx + 1) (some s) vs := rfl

/-- `GridPair::lines`: scan every column of the column-difference grid in
increasing column order (emitting `Vertical` segments with `x = col`,
`y = start`), then every row of the row-difference grid in increasing row
order (emitting `Horizontal` segments with `x = start`, `y = row`). -/
def GridPair.lines (gp : GridPair) : List Line :=
  ((List.range gp.1.cols).flatMap fun col =>
    (runScan 0 none (gp.1.colVals col)).map fun p =>
      ⟨Direction.Vertical, col, p.1, p.2⟩) ++
  ((List.range gp.2.rows).flatMap fun row =>
    (runScan 0 none (gp.2.rowVals row)).map fun p =>
      ⟨Direction.Horizontal, p.1, row, p.2⟩)

/-- What the claimed state machine emits on a scan line `vals`: a run of at
least one cell, every cell of `[s, s + len)` at least `1.0`, the run closed
by a cell `< 1.0` at index `s + len` strictly inside the line (hence a run
still open when the line ends never qualifies), and the run entered from
the idle state (at index 0, or right after a cell `< 1.0`). -/
def IsRun (vals : List ℚ) (s len : Nat) : Prop :=
  1 ≤ len ∧ s + len < vals.length ∧
  (∀ j, j < len → 1 ≤ vals.getD (s + j) 0) ∧
  vals.getD (s + len) 0 < 1 ∧
  (s = 0 ∨ vals.getD (s - 1) 0 < 1)

instance (vals : List ℚ) (s len : Nat) : Decidable (IsRun vals s len) := by
  unfold IsRun; infer_instance

/-- A run pending at the head of the remaining cells `vs` closes at relative
index `j`: cells before `j` keep the run alive, cell `j` ends it. -/
def ClosesAt (vs : List ℚ) (j : Nat) : Prop :=
  j < vs.length ∧ (∀ k, k < j → 1 ≤ vs.getD k 0) ∧ vs.getD j 0 < 1

lemma isRun_cons_zero (v : ℚ) (vs : List ℚ) (len : Nat) :
    IsRun (v :: vs) 0 len ↔ 1 ≤ len ∧ 1 ≤ v ∧ ClosesAt vs (len - 1) := by
  constructor
  · rintro ⟨h1, h2, h3, h4, -⟩
    obtain ⟨m, rfl⟩ : ∃ m, len = m + 1 := ⟨len - 1, by omega⟩
    refine ⟨by omega, by simpa using h3 0 (by omega), ?_, ?_, ?_⟩
    · simp only [List.length_cons] at h2; omega
    · intro k hk
      simpa using h3 (k + 1) (by omega)
    · simpa using h4
  · rintro ⟨h1, hv, hj, hk, hc⟩
    obtain ⟨m, rfl⟩ : ∃ m, len = m + 1 := ⟨len - 1, by omega⟩
    simp only [Nat.add_sub_cancel] at hj hk hc
    refine ⟨by omega, by simp only [List.length_cons]; omega, ?_, by simpa using hc,
      Or.inl rfl⟩
    intro j hjlt
    cases j with
    | zero => simpa using hv
    | succ k => simpa using hk k (by omega)

lemma isRun_cons_succ (v : ℚ) (vs : List ℚ) (t len : Nat) :
    IsRun (v :: vs) (t + 1) len ↔
      (t = 0 ∧ v < 1 ∧ IsRun vs 0 len) ∨ (1 ≤ t ∧ IsRun vs t len) := by
  constructor
  · rintro ⟨h1, h2, h3, h4, h5⟩
    have h2' : t + len < vs.length := by simp only [List.length_cons] at h2; omega
    have h3' : ∀ j, j < len → 1 ≤ vs.getD (t + j) 0 := by
      intro j hj
      simpa [Nat.add_right_comm] using h3 j hj
    have h4' : vs.getD (t + len) 0 < 1 := by
      simpa [Nat.add_right_comm] using h4
    cases t with
    | zero =>
      have hv : v < 1 := by
        rcases h5 with h | h
        · omega
        · simpa using h
      exact Or.inl ⟨rfl, hv, h1, h2', h3', h4', Or.inl rfl⟩
    | succ t' =>
      have h5' : vs.getD t' 0 < 1 := by
        rcases h5 with h | h
        · omega
        · simpa using h
      exact Or.inr ⟨by omega, h1, h2', h3', h4', Or.inr (by simpa using h5')⟩
  · rintro (⟨rfl, hv, h1, h2, h3, h4, -⟩ | ⟨ht, h1, h2, h3, h4, h5⟩)
    · refine ⟨h1, by simp only [List.length_cons]; omega, ?_,
        by simpa [Nat.add_comm 1 len] using h4, Or.inr (by simpa using hv)⟩
      intro j hj
      simpa [Nat.add_comm 1 j] using h3 j hj
    · refine ⟨h1, by simp only [List.length_cons]; omega, ?_, ?_, ?_⟩
      · intro j hj
        simpa [Nat.add_right_comm] using h3 j hj
      · simpa [Nat.add_right_comm] using h4
      · right
        obtain ⟨t', rfl⟩ : ∃ t', t = t' + 1 := ⟨t - 1, by omega⟩
        rcases h5 with h | h
        · omega
        · simpa using h

lemma closesAt_cons (v : ℚ) (vs : List ℚ) (j : Nat) :
    ClosesAt (v :: vs) j ↔
      (j = 0 ∧ v < 1) ∨ ∃ i, j = i + 1 ∧ 1 ≤ v ∧ ClosesAt vs i := by
  constructor
  · rintro ⟨h1, h2, h3⟩
    cases j with
    | zero => exact Or.inl ⟨rfl, by simpa using h3⟩
    | succ i =>
      refine Or.inr ⟨i, rfl, by simpa using h2 0 (by omega), ?_, ?_, by simpa using h3⟩
      · simp only [List.length_cons] at h1; omega
      · intro k hk
        simpa using h2 (k + 1) (by omega)
  · rintro (⟨rfl, hv⟩ | ⟨i, rfl, hv, h1, h2, h3⟩)
    · exact ⟨by simp, by omega, by simpa using hv⟩
    · refine ⟨by simp only [List.length_cons]; omega, ?_, by simpa using h3⟩
      intro k hk
      cases k with
      | zero => simpa using hv
      | succ k' => simpa using h2 k' (by omega)

/-- Joint characterization of the scanner: started idle at `idx`, it emits
exactly the runs of the remaining cells (shifted by `idx`); started inside a
run opened at `s0 < idx`, it additionally emits `(s0, idx + j - s0)` when
the pending run closes at relative index `j`. -/
lemma runScan_char (vs : List ℚ) :
    (∀ idx s l, ((s, l) ∈ runScan idx none vs ↔ ∃ t, s = idx + t ∧ IsRun vs t l)) ∧
    (∀ idx s0, s0 < idx → ∀ s l,
      ((s, l) ∈ runScan idx (some s0) vs ↔
        (s = s0 ∧ ∃ j, ClosesAt vs j ∧ l = idx + j - s0) ∨
        (∃ t, s = idx + t ∧ 1 ≤ t ∧ IsRun vs t l))) := by
  induction vs with
  | nil =>
    constructor
    · intro idx s l
      simp only [runScan_nil, List.not_mem_nil, false_iff, not_exists]
      rintro t ⟨-, -, h2, -⟩
      simp at h2
    · intro idx s0 _ s l
      simp only [runScan_nil, List.not_mem_nil, false_iff]
      rintro (⟨-, j, hj, -⟩ | ⟨t, -, -, -, h2, -⟩)
      · have := hj.1; simp at this
      · simp at h2
  | cons v vs ih =>
    obtain ⟨ihA, ihB⟩ := ih
    constructor
    · intro idx s l
      rw [runScan_cons_none]
      by_cases hv : 1 ≤ v
      · rw [if_pos hv, ihB (idx + 1) idx (by omega) s l]
        constructor
        · rintro (⟨rfl, j, hcl, hl⟩ | ⟨t, rfl, ht, hrun⟩)
          · refine ⟨0, by omega, (isRun_cons_zero v vs l).mpr ⟨by omega, hv, ?_⟩⟩
            have hlj : l - 1 = j := by omega
            rw [hlj]; exact hcl
          · exact ⟨t + 1, by omega, (isRun_cons_succ v vs t l).mpr (Or.inr ⟨ht, hrun⟩)⟩
        · rintro ⟨t, rfl, hrun⟩
          cases t with
          | zero =>
            obtain ⟨hl, -, hcl⟩ := (isRun_cons_zero v vs l).mp hrun
            exact Or.inl ⟨by omega, l - 1, hcl, by omega⟩
          | succ t' =>
            rcases (isRun_cons_succ v vs t' l).mp hrun with ⟨rfl, hv1, -⟩ | ⟨ht', hrun'⟩
            · exact absurd hv1 (not_lt.mpr hv)
            · exact Or.inr ⟨t', by omega, ht', hrun'⟩
      · rw [if_neg hv, ihA (idx + 1) s l]
        have hv' : v < 1 := not_le.mp hv
        constructor
        · rintro ⟨t', rfl, hrun⟩
          rcases Nat.eq_zero_or_pos t' with rfl | ht'
          · exact ⟨1, by omega, (isRun_cons_succ v vs 0 l).mpr (Or.inl ⟨rfl, hv', hrun⟩)⟩
          · exact ⟨t' + 1, by omega, (isRun_cons_succ v vs t' l).mpr (Or.inr ⟨ht', hrun⟩)⟩
        · rintro ⟨t, rfl, hrun⟩
          cases t with
          | zero =>
            obtain ⟨-, hv1, -⟩ := (isRun_cons_zero v vs l).mp hrun
            exact absurd hv1 (not_le.mpr hv')
          | succ t' =>
            rcases (isRun_cons_succ v vs t' l).mp hrun with ⟨rfl, -, hrun0⟩ | ⟨ht', hrun'⟩
            · exact ⟨0, by omega, hrun0⟩
            · exact ⟨t', by omega, hrun'⟩
    · intro idx s0 hs0 s l
      rw [runScan_cons_some]
      by_cases hv : v < 1
      · rw [if_pos hv]
        simp only [List.mem_cons, Prod.mk.injEq]
        rw [ihA (idx + 1) s l]
        constructor
        · rintro (⟨rfl, rfl⟩ | ⟨t', rfl, hrun⟩)
          · exact Or.inl ⟨rfl, 0, (closesAt_cons v vs 0).mpr (Or.inl ⟨rfl, hv⟩), by omega⟩
          · rcases Nat.eq_zero_or_pos t' with rfl | ht'
            · exact Or.inr ⟨1, by omega, by omega,
                (isRun_cons_succ v vs 0 l).mpr (Or.inl ⟨rfl, hv, hrun⟩)⟩
            · exact Or.inr ⟨t' + 1, by omega, by omega,
                (isRun_cons_succ v vs t' l).mpr (Or.inr ⟨ht', hrun⟩)⟩
        · rintro (⟨rfl, j, hcl, hl⟩ | ⟨t, rfl, ht, hrun⟩)
          · rcases (closesAt_cons v vs j).mp hcl with ⟨rfl, -⟩ | ⟨i, rfl, hv1, -⟩
            · exact Or.inl ⟨rfl, by omega⟩
            · exact absurd hv1 (not_le.mpr hv)
          · cases t with
            | zero => omega
            | succ t' =>
              rcases (isRun_cons_succ v vs t' l).mp hrun with ⟨rfl, -, hrun0⟩ | ⟨ht', hrun'⟩
              · exact Or.inr ⟨0, by omega, hrun0⟩
              · exact Or.inr ⟨t', by omega, hrun'⟩
      · rw [if_neg hv, ihB (idx + 1) s0 (by omega) s l]
        have hv' : 1 ≤ v := not_lt.mp hv
        constructor
        · rintro (⟨rfl, j, hcl, hl⟩ | ⟨t', rfl, ht', hrun⟩)
          · exact Or.inl ⟨rfl, j + 1,
              (closesAt_cons v vs (j + 1)).mpr (Or.inr ⟨j, rfl, hv', hcl⟩), by omega⟩
          · exact Or.inr ⟨t' + 1, by omega, by omega,
              (isRun_cons_succ v vs t' l).mpr (Or.inr ⟨ht', hrun⟩)⟩
        · rintro (⟨rfl, j, hcl, hl⟩ | ⟨t, rfl, ht, hrun⟩)
          · rcases (closesAt_cons v vs j).mp hcl with ⟨rfl, hv1⟩ | ⟨i, rfl, -, hcli⟩
            · exact absurd hv1 (not_lt.mpr hv')
            · exact Or.inl ⟨rfl, i, hcli, by omega⟩
          · cases t with
            | zero => omega
            | succ t' =>
              rcases (isRun_cons_succ v vs t' l).mp hrun with ⟨rfl, hv1, -⟩ | ⟨ht', hrun'⟩
              · exact absurd hv1 (not_lt.mpr hv')
              · exact Or.inr ⟨t', by omega, ht', hrun'⟩

/-- A pair is emitted by a scan line started idle at index 0 exactly when
it is a closed, left-maximal run of the line. -/
lemma runScan_mem_iff (vals : List ℚ) (s l : Nat) :
    (s, l) ∈ runScan 0 none vals ↔ IsRun vals s l := by
  rw [(runScan_char vals).1 0 s l]
  constructor
  · rintro ⟨t, rfl, h⟩
    simpa using h
  · intro h
    exact ⟨s, (Nat.zero_add s).symm, h⟩

/-- The start indices of the pairs emitted on one scan line strictly
increase along the output. -/
lemma runScan_pairwise (vs : List ℚ) :
    ∀ idx st, (∀ s0, st = some s0 → s0 < idx) →
      List.Pairwise (fun a b : Nat × Nat => a.1 < b.1) (runScan idx st vs) := by
  induction vs with
  | nil =>
    intro idx st _
    simp [runScan_nil]
  | cons v vs ih =>
    intro idx st hst
    match st with
    | none =>
      rw [runScan_cons_none]
      split
      · exact ih (idx + 1) (some idx) (by rintro s0 h; injection h with h; omega)
      · exact ih (idx + 1) none (by simp)
    | some s0 =>
      have hs0 : s0 < idx := hst s0 rfl
      rw [runScan_cons_some]
      split
      · rw [List.pairwise_cons]
        refine ⟨?_, ih (idx + 1) none (by simp)⟩
        intro p hp
        obtain ⟨t, ht, -⟩ := ((runScan_char vs).1 (idx + 1) p.1 p.2).mp hp
        simp only
        omega
      · exact ih (idx + 1) (some s0) (by rintro s1 h; injection h with h; omega)

/-! ### Claim C1 -/

lemma lines_mem_char (gp : GridPair) (seg : Line) :
    seg ∈ GridPair.lines gp ↔
      (seg.dir = Direction.Vertical ∧ seg.x < gp.1.cols ∧
        IsRun (gp.1.colVals seg.x) seg.y seg.len) ∨
      (seg.dir = Direction.Horizontal ∧ seg.y < gp.2.rows ∧
        IsRun (gp.2.rowVals seg.y) seg.x seg.len) := by
  obtain ⟨d, x, y, len⟩ := seg
  unfold GridPair.lines
  simp only [List.mem_append, List.mem_flatMap, List.mem_range, List.mem_map]
  constructor
  · rintro (⟨col, hcol, p, hp, heq⟩ | ⟨row, hrow, p, hp, heq⟩)
    · cases heq
      exact Or.inl ⟨rfl, hcol, (runScan_mem_iff _ p.1 p.2).mp hp⟩
    · cases heq
      exact Or.inr ⟨rfl, hrow, (runScan_mem_iff _ p.1 p.2).mp hp⟩
  · rintro (⟨hd, hx, hrun⟩ | ⟨hd, hy, hrun⟩)
    · cases hd
      exact Or.inl ⟨x, hx, (y, len), (runScan_mem_iff _ y len).mpr hrun, rfl⟩
    · cases hd
      exact Or.inr ⟨y, hy, (x, len), (runScan_mem_iff _ x len).mpr hrun, rfl⟩

/-- C1: a segment is emitted by the line extractor exactly when it is a
closed, left-maximal run of one scan line of the binarized grids — a
`Vertical` segment for a column of the column-difference grid, a
`Horizontal` segment for a row of the row-difference grid, where `IsRun`
states: the scanner enters a run on a cell `≥ 1.0` while idle, emits the
covered span `[start, current)` on a cell `< 1.0` while in a run, and a run
still open at the end of the scan line is never emitted. -/
theorem lines_state_machine (gp : GridPair) (seg : Line) :
    seg ∈ GridPair.lines gp ↔
      (seg.dir = Direction.Vertical ∧ seg.x < gp.1.cols ∧
        IsRun (gp.1.colVals seg.x) seg.y seg.len) ∨
      (seg.dir = Direction.Horizontal ∧ seg.y < gp.2.rows ∧
        IsRun (gp.2.rowVals seg.y) seg.x seg.len) :=
  lines_mem_char gp seg

/-! ### Claim C6 -/

/-- C6: every segment emitted by the line extractor has length at least 1,
and its covered span lies inside the bounds of the grid it was extracted
from (the column-difference grid for Vertical segments, the row-difference
grid for Horizontal ones). -/
theorem lines_segments_valid (gp : GridPair) (h1 : gp.1.WF) (h2 : gp.2.WF) :
    ∀ seg ∈ GridPair.lines gp, 1 ≤ seg.len ∧
      (seg.dir = Direction.Vertical →
        seg.x < gp.1.cols ∧ seg.y + seg.len ≤ gp.1.rows) ∧
      (seg.dir = Direction.Horizontal →
        seg.y < gp.2.rows ∧ seg.x + seg.len ≤ gp.2.cols) := by
  intro seg hseg
  rcases (lines_mem_char gp seg).mp hseg with ⟨hd, hx, hrun⟩ | ⟨hd, hy, hrun⟩
  · have hlen : (gp.1.colVals seg.x).length = gp.1.rows := by
      simp [Grid.colVals, h1.1]
    refine ⟨hrun.1, fun _ => ⟨hx, ?_⟩, fun hh => ?_⟩
    · have := hrun.2.1
      omega
    · rw [hd] at hh
      cases hh
  · have hylt : seg.y < gp.2.data.length := by
      rw [h2.1]; exact hy
    have hlen : (gp.2.rowVals seg.y).length = gp.2.cols := by
      unfold Grid.rowVals
      rw [List.getD_eq_getElem _ _ hylt]
      exact h2.2 _ (List.getElem_mem hylt)
    refine ⟨hrun.1, fun hh => ?_, fun _ => ⟨hy, ?_⟩⟩
    · rw [hd] at hh
      cases hh
    · have := hrun.2.1
      omega

/-- A tiny concrete grid pair: a 2×1 column-difference grid whose column is
`[1, 0]`, and an empty row-difference grid. -/
def smallPair : GridPair := (⟨2, 1, [[1], [0]]⟩, ⟨0, 2, []⟩)

/-- C6 witness: the single segment the extractor emits on `smallPair` has
length 1 and spans inside the 2-row column grid. -/
theorem lines_segments_valid_witness :
    1 ≤ (⟨Direction.Vertical, 0, 0, 1⟩ : Line).len ∧
    ((⟨Direction.Vertical, 0, 0, 1⟩ : Line).dir = Direction.Vertical →
      (⟨Direction.Vertical, 0, 0, 1⟩ : Line).x < smallPair.1.cols ∧
      (⟨Direction.Vertical, 0, 0, 1⟩ : Line).y + (⟨Direction.Vertical, 0, 0, 1⟩ : Line).len ≤
        smallPair.1.rows) ∧
    ((⟨Direction.Vertical, 0, 0, 1⟩ : Line).dir = Direction.Horizontal →
      (⟨Direction.Vertical, 0, 0, 1⟩ : Line).y < smallPair.2.rows ∧
      (⟨Direction.Vertical, 0, 0, 1⟩ : Line).x + (⟨Direction.Vertical, 0, 0, 1⟩ : Line).len ≤
        smallPair.2.cols) :=
  lines_segments_valid smallPair (by decide) (by decide)
    ⟨Direction.Vertical, 0, 0, 1⟩ (by decide)

/-! ### Claim C10 -/

/-- Required relative order between two output segments: Vertical always
before Horizontal, Vertical segments ordered by column then start index,
Horizontal segments by row then start index. -/
def segBefore (a b : Line) : Prop :=
  match a.dir, b.dir with
  | Direction.Vertical, Direction.Horizontal => True
  | Direction.Vertical, Direction.Vertical => a.x < b.x ∨ (a.x = b.x ∧ a.y < b.y)
  | Direction.Horizontal, Direction.Horizontal => a.y < b.y ∨ (a.y = b.y ∧ a.x < b.x)
  | Direction.Horizontal, Direction.Vertical => False

lemma pairwise_flatMap_range {α : Type} (R : α → α → Prop) (f : Nat → List α) (n : Nat)
    (hin : ∀ c, c < n → List.Pairwise R (f c))
    (hcross : ∀ c c', c < c' → c' < n → ∀ x ∈ f c, ∀ y ∈ f c', R x y) :
    List.Pairwise R ((List.range n).flatMap f) := by
  induction n with
  | zero => simp
  | succ n ih =>
    rw [List.range_succ, List.flatMap_append, List.pairwise_append]
    refine ⟨ih (fun c hc => hin c (by omega))
      (fun c c' hcc hc' => hcross c c' hcc (by omega)), ?_, ?_⟩
    · simp only [List.flatMap_cons, List.flatMap_nil, List.append_nil]
      exact hin n (by omega)
    · intro x hx y hy
      simp only [List.mem_flatMap, List.mem_range] at hx
      simp only [List.flatMap_cons, List.flatMap_nil, List.append_nil] at hy
      obtain ⟨c, hc, hxc⟩ := hx
      exact hcross c n hc (by omega) x hxc y hy

/-- C10: in `GridPair::lines` output, every Vertical segment precedes every
Horizontal segment; Vertical segments appear in increasing column order and
increasing start index within a column, Horizontal segments in increasing
row order and increasing start index within a row. -/
theorem lines_output_order (gp : GridPair) :
    List.Pairwise segBefore (GridPair.lines gp) := by
  unfold GridPair.lines
  rw [List.pairwise_append]
  refine ⟨?_, ?_, ?_⟩
  · apply pairwise_flatMap_range
    · intro c _
      exact List.Pairwise.map _ (fun a b hab => Or.inr ⟨rfl, hab⟩)
        (runScan_pairwise _ 0 none (by simp))
    · intro c c' hcc _ x hx y hy
      simp only [List.mem_map] at hx hy
      obtain ⟨p, -, rfl⟩ := hx
      obtain ⟨q, -, rfl⟩ := hy
      exact Or.inl hcc
  · apply pairwise_flatMap_range
    · intro r _
      exact List.Pairwise.map _ (fun a b hab => Or.inr ⟨rfl, hab⟩)
        (runScan_pairwise _ 0 none (by simp))
    · intro r r' hrr _ x hx y hy
      simp only [List.mem_map] at hx hy
      obtain ⟨p, -, rfl⟩ := hx
      obtain ⟨q, -, rfl⟩ := hy
      exact Or.inl hrr
  · intro x hx y hy
    simp only [List.mem_flatMap, List.mem_range, List.mem_map] at hx hy
    obtain ⟨c, -, p, -, rfl⟩ := hx
    obtain ⟨r, -, q, -, rfl⟩ := hy
    trivial

/-! ### Renderer (main.rs `Lines::to_image`, lines 115-135) -/

/-- An RGB pixel of the output canvas (the `[u8; 3]` cells of `img_grid`). -/
structure Px where
  r : Nat
  g : Nat
  b : Nat
deriving DecidableEq

/-- Painting one Horizontal line: in row `y`, the cells reached by
`.skip(x).take(len)` become `[255, p[1], 0]`.  The canvas state is a total
function on indices; only cells with `r < height`, `c < width` are
materialized at the end, which models the silent end-of-row clipping of the
`skip`/`take` iterator chain. -/
def paintH (f : Nat → Nat → Px) (y x len : Nat) : Nat → Nat → Px :=
  fun r c => if y = r ∧ x ≤ c ∧ c < x + len then ⟨255, (f r c).g, 0⟩ else f r c

/-- Painting one Vertical line: in column `x`, the cells reached by
`.skip(y).take(len)` become `[p[0], 255, 0]`. -/
def paintV (f : Nat → Nat → Px) (x y len : Nat) : Nat → Nat → Px :=
  fun r c => if x = c ∧ y ≤ r ∧ r < y + len then ⟨(f r c).r, 255, 0⟩ else f r c

/-- Sequential painting of the line list with the out-of-bounds panics of
`Grid::iter_row_mut` / `iter_col_mut`: a Horizontal line with `y ≥ height`
or a Vertical line with `x ≥ width` aborts the program (`none`). -/
def paintAll (width height : Nat) : (Nat → Nat → Px) → List Line → Option (Nat → Nat → Px)
  | f, [] => some f
  | f, l :: ls =>
    match l.dir with
    | Direction.Horizontal =>
      if l.y < height then paintAll width height (paintH f l.y l.x l.len) ls else none
    | Direction.Vertical =>
      if l.x < width then paintAll width height (paintV f l.x l.y l.len) ls else none

/-- `Lines::to_image`: paint every line onto a black canvas of the given
dimensions, then materialize the canvas row-major (the final
`ImageBuffer::from_raw`). -/
def to_image (lines : List Line) (width height : Nat) : Option (List (List Px)) :=
  (paintAll width height (fun _ _ => ⟨0, 0, 0⟩) lines).map fun f =>
    (List.range height).map fun r => (List.range width).map fun c => f r c

/-- The panic condition of the renderer: a Horizontal segment with row
index at least `height`, or a Vertical segment with column index at least
`width`. -/
def badIndex (l : Line) (width height : Nat) : Prop :=
  (l.dir = Direction.Horizontal ∧ height ≤ l.y) ∨
  (l.dir = Direction.Vertical ∧ width ≤ l.x)

/-- A Horizontal segment covers cell `(r, c)` of the canvas. -/
def coversH (l : Line) (r c : Nat) : Prop :=
  l.dir = Direction.Horizontal ∧ l.y = r ∧ l.x ≤ c ∧ c < l.x + l.len

/-- A Vertical segment covers cell `(r, c)` of the canvas. -/
def coversV (l : Line) (r c : Nat) : Prop :=
  l.dir = Direction.Vertical ∧ l.x = c ∧ l.y ≤ r ∧ r < l.y + l.len

instance (l : Line) (r c : Nat) : Decidable (coversH l r c) := by
  unfold coversH; infer_instance

instance (l : Line) (r c : Nat) : Decidable (coversV l r c) := by
  unfold coversV; infer_instance

/-- A segment whose whole span lies inside `[0, width) × [0, height)`. -/
def InBounds (l : Line) (width height : Nat) : Prop :=
  (l.dir = Direction.Horizontal → l.y < height ∧ l.x + l.len ≤ width) ∧
  (l.dir = Direction.Vertical → l.x < width ∧ l.y + l.len ≤ height)

instance (l : Line) (width height : Nat) : Decidable (InBounds l width height) := by
  unfold InBounds; infer_instance

lemma paintH_char (f : Nat → Nat → Px) (y x len r c : Nat) :
    paintH f y x len r c =
      if coversH ⟨Direction.Horizontal, x, y, len⟩ r c
      then ⟨255, (f r c).g, 0⟩ else f r c := by
  unfold paintH coversH
  by_cases h : y = r ∧ x ≤ c ∧ c < x + len
  · rw [if_pos h, if_pos ⟨rfl, h⟩]
  · rw [if_neg h, if_neg (fun hc => h hc.2)]

lemma paintV_char (f : Nat → Nat → Px) (x y len r c : Nat) :
    paintV f x y len r c =
      if coversV ⟨Direction.Vertical, x, y, len⟩ r c
      then ⟨(f r c).r, 255, 0⟩ else f r c := by
  unfold paintV coversV
  by_cases h : x = c ∧ y ≤ r ∧ r < y + len
  · rw [if_pos h, if_pos ⟨rfl, h⟩]
  · rw [if_neg h, if_neg (fun hc => h hc.2)]

lemma exists_mem_cons_of_not {P : Line → Prop} {a : Line} {ls : List Line} (ha : ¬ P a) :
    (∃ l ∈ a :: ls, P l) ↔ ∃ l ∈ ls, P l := by
  constructor
  · rintro ⟨l, hl, hp⟩
    rcases List.mem_cons.mp hl with rfl | hl'
    · exact absurd hp ha
    · exact ⟨l, hl', hp⟩
  · rintro ⟨l, hl, hp⟩
    exact ⟨l, List.mem_cons_of_mem _ hl, hp⟩

/-- Panic characterization of `paintAll`: it fails exactly when some listed
segment's scan-line index is out of range; painting itself never fails. -/
lemma paintAll_eq_none_iff (width height : Nat) :
    ∀ (ls : List Line) (f : Nat → Nat → Px),
      (paintAll width height f ls = none ↔ ∃ l ∈ ls, badIndex l width height) := by
  intro ls
  induction ls with
  | nil =>
    intro f
    simp [paintAll]
  | cons l ls ih =>
    intro f
    obtain ⟨d, x, y, len⟩ := l
    cases d with
    | Horizontal =>
      show (if y < height then _ else none) = none ↔ _
      by_cases hy : y < height
      · rw [if_pos hy, ih]
        constructor
        · rintro ⟨l', hl', hbad⟩
          exact ⟨l', List.mem_cons_of_mem _ hl', hbad⟩
        · rintro ⟨l', hl', hbad⟩
          rcases List.mem_cons.mp hl' with rfl | hl''
          · rcases hbad with ⟨-, hge⟩ | ⟨hd, -⟩
            · have hge' : height ≤ y := hge
              omega
            · simp at hd
          · exact ⟨l', hl'', hbad⟩
      · rw [if_neg hy]
        simp only [true_iff]
        exact ⟨_, List.mem_cons_self _ _, Or.inl ⟨rfl, show height ≤ y by omega⟩⟩
    | Vertical =>
      show (if x < width then _ else none) = none ↔ _
      by_cases hx : x < width
      · rw [if_pos hx, ih]
        constructor
        · rintro ⟨l', hl', hbad⟩
          exact ⟨l', List.mem_cons_of_mem _ hl', hbad⟩
        · rintro ⟨l', hl', hbad⟩
          rcases List.mem_cons.mp hl' with rfl | hl''
          · rcases hbad with ⟨hd, -⟩ | ⟨-, hge⟩
            · simp at hd
            · have hge' : width ≤ x := hge
              omega
          · exact ⟨l', hl'', hbad⟩
      · rw [if_neg hx]
        simp only [true_iff]
        exact ⟨_, List.mem_cons_self _ _, Or.inr ⟨rfl, show width ≤ x by omega⟩⟩

/-- Cell-wise characterization of successful painting: red is 255 exactly
where some Horizontal segment covers, green is 255 exactly where some
Vertical segment covers, blue is cleared wherever any segment covers. -/
lemma paintAll_char (width height : Nat) :
    ∀ (ls : List Line) (f : Nat → Nat → Px),
      (∀ l ∈ ls, InBounds l width height) →
      ∃ g, paintAll width height f ls = some g ∧ ∀ r c,
        g r c = ⟨(if ∃ l ∈ ls, coversH l r c then 255 else (f r c).r),
                 (if ∃ l ∈ ls, coversV l r c then 255 else (f r c).g),
                 (if ∃ l ∈ ls, coversH l r c ∨ coversV l r c then 0 else (f r c).b)⟩ := by
  intro ls
  induction ls with
  | nil =>
    intro f _
    refine ⟨f, rfl, fun r c => ?_⟩
    simp
  | cons l ls ih =>
    intro f hb
    have hbl := hb _ (List.mem_cons_self _ _)
    have hbls : ∀ l' ∈ ls, InBounds l' width height :=
      fun l' hl' => hb l' (List.mem_cons_of_mem _ hl')
    obtain ⟨d, x, y, len⟩ := l
    cases d with
    | Horizontal =>
      have hy : y < height := (hbl.1 rfl).1
      obtain ⟨g, hg, hcell⟩ := ih (paintH f y x len) hbls
      refine ⟨g, ?_, ?_⟩
      · show (if y < height then _ else none) = some g
        rw [if_pos hy]
        exact hg
      · intro r c
        rw [hcell r c, paintH_char]
        have hnV : ¬ coversV ⟨Direction.Horizontal, x, y, len⟩ r c := by
          rintro ⟨hd, -⟩
          simp at hd
        by_cases hh : coversH ⟨Direction.Horizontal, x, y, len⟩ r c
        · rw [if_pos hh]
          have hch : ∃ l ∈ (⟨Direction.Horizontal, x, y, len⟩ :: ls), coversH l r c :=
            ⟨_, List.mem_cons_self _ _, hh⟩
          have hchv : ∃ l ∈ (⟨Direction.Horizontal, x, y, len⟩ :: ls),
              coversH l r c ∨ coversV l r c :=
            ⟨_, List.mem_cons_self _ _, Or.inl hh⟩
          rw [if_pos hch, if_pos hchv]
          rw [if_congr (exists_mem_cons_of_not (P := fun l => coversV l r c) hnV) rfl rfl]
          simp [Px.mk.injEq, ite_self]
        · rw [if_neg hh]
          rw [if_congr (exists_mem_cons_of_not (P := fun l => coversH l r c) hh).symm rfl rfl,
            if_congr (exists_mem_cons_of_not (P := fun l => coversV l r c) hnV).symm rfl rfl,
            if_congr (exists_mem_cons_of_not (P := fun l => coversH l r c ∨ coversV l r c)
              (by rintro (h | h) <;> [exact hh h; exact hnV h])).symm rfl rfl]
    | Vertical =>
      have hx : x < width := (hbl.2 rfl).1
      obtain ⟨g, hg, hcell⟩ := ih (paintV f x y len) hbls
      refine ⟨g, ?_, ?_⟩
      · show (if x < width then _ else none) = some g
        rw [if_pos hx]
        exact hg
      · intro r c
        rw [hcell r c, paintV_char]
        have hnH : ¬ coversH ⟨Direction.Vertical, x, y, len⟩ r c := by
          rintro ⟨hd, -⟩
          simp at hd
        by_cases hh : coversV ⟨Direction.Vertical, x, y, len⟩ r c
        · rw [if_pos hh]
          have hcv : ∃ l ∈ (⟨Direction.Vertical, x, y, len⟩ :: ls), coversV l r c :=
            ⟨_, List.mem_cons_self _ _, hh⟩
          have hchv : ∃ l ∈ (⟨Direction.Vertical, x, y, len⟩ :: ls),
              coversH l r c ∨ coversV l r c :=
            ⟨_, List.mem_cons_self _ _, Or.inr hh⟩
          rw [if_pos hcv, if_pos hchv]
          rw [if_congr (exists_mem_cons_of_not (P := fun l => coversH l r c) hnH) rfl rfl]
          simp [Px.mk.injEq, ite_self]
        · rw [if_neg hh]
          rw [if_congr (exists_mem_cons_of_not (P := fun l => coversH l r c) hnH).symm rfl rfl,
            if_congr (exists_mem_cons_of_not (P := fun l => coversV l r c) hh).symm rfl rfl,
            if_congr (exists_mem_cons_of_not (P := fun l => coversH l r c ∨ coversV l r c)
              (by rintro (h | h) <;> [exact hnH h; exact hh h])).symm rfl rfl]

lemma getD_range_map {β : Type} (f : Nat → β) (n i : Nat) (d : β) (h : i < n) :
    ((List.range n).map f).getD i d = f i := by
  rw [List.getD_eq_getElem _ _ (by simpa using h)]
  simp

/-! ### Claim C4 -/

/-- C4 counterexample: the segment `Horizontal, origin (0, 0), length 100`
spans `[0, 100) × {0}`, far outside a 2×2 canvas, yet the renderer reports
no error: it silently clips the segment at the row end and returns a fully
painted canvas. -/
theorem to_image_clips_out_of_bounds_span :
    to_image [⟨Direction.Horizontal, 0, 0, 100⟩] 2 2 =
      some [[⟨255, 0, 0⟩, ⟨255, 0, 0⟩], [⟨0, 0, 0⟩, ⟨0, 0, 0⟩]] ∧
    (to_image [⟨Direction.Horizontal, 0, 0, 100⟩] 2 2).isSome = true := by
  constructor <;> decide

/-- C4 (amended): the renderer aborts with a panic (modelled as `none`, no
canvas produced) exactly when some segment's scan-line index is out of
range — a Horizontal segment with `y ≥ height` or a Vertical one with
`x ≥ width`.  Every other segment list yields a full canvas, even when
segment spans extend beyond the canvas: such spans are silently clipped at
the end of their scan line, never rejected with a reported error. -/
theorem to_image_none_iff (ls : List Line) (width height : Nat) :
    to_image ls width height = none ↔ ∃ l ∈ ls, badIndex l width height := by
  unfold to_image
  rw [Option.map_eq_none']
  exact paintAll_eq_none_iff width height ls _

/-! ### Claim C9 -/

/-- C9: rendering an in-bounds segment list always succeeds, and each cell
of the canvas holds red 255 exactly when some Horizontal segment covers it
and green 255 exactly when some Vertical segment covers it, independently
of the order segments are painted in — so a cell covered by both a
Horizontal and a Vertical segment shows both orientation channels at
maximum simultaneously, and a cell covered by no segment keeps the black
background `(0, 0, 0)`. -/
theorem to_image_cell_values (ls : List Line) (width height : Nat)
    (hb : ∀ l ∈ ls, InBounds l width height) :
    ∃ img, to_image ls width height = some img ∧ ∀ r c, r < height → c < width →
      (img.getD r []).getD c ⟨0, 0, 0⟩ =
        ⟨(if ∃ l ∈ ls, coversH l r c then 255 else 0),
         (if ∃ l ∈ ls, coversV l r c then 255 else 0), 0⟩ := by
  obtain ⟨g, hg, hcell⟩ := paintAll_char width height ls (fun _ _ => ⟨0, 0, 0⟩) hb
  refine ⟨(List.range height).map fun r => (List.range width).map fun c => g r c, ?_, ?_⟩
  · rw [to_image, hg]
    rfl
  intro r c hr hc
  rw [getD_range_map _ _ _ _ hr, getD_range_map _ _ _ _ hc, hcell r c]
  simp [ite_self]

/-- C9 witness: on a 3×3 canvas, a Horizontal segment through row 1 and a
Vertical segment through column 1 are both in bounds and overlap at the
centre cell. -/
theorem to_image_cell_values_witness :
    ∃ img, to_image [⟨Direction.Horizontal, 0, 1, 3⟩, ⟨Direction.Vertical, 1, 0, 3⟩] 3 3 =
        some img ∧ ∀ r c, r < 3 → c < 3 →
      (img.getD r []).getD c ⟨0, 0, 0⟩ =
        ⟨(if ∃ l ∈ [(⟨Direction.Horizontal, 0, 1, 3⟩ : Line), ⟨Direction.Vertical, 1, 0, 3⟩],
            coversH l r c then 255 else 0),
         (if ∃ l ∈ [(⟨Direction.Horizontal, 0, 1, 3⟩ : Line), ⟨Direction.Vertical, 1, 0, 3⟩],
            coversV l r c then 255 else 0), 0⟩ :=
  to_image_cell_values
    [⟨Direction.Horizontal, 0, 1, 3⟩, ⟨Direction.Vertical, 1, 0, 3⟩] 3 3 (by decide)

/-! ### Difference-grid construction (main.rs `main`, lines 202-235) -/

/-- An RGB pixel of the input raster (the three `u8` channels). -/
abbrev Rgb := Nat × Nat × Nat

/-- A perceptual Lab colour coordinate (luminance and two chroma axes). -/
structure LabC where
  l : ℚ
  a : ℚ
  b : ℚ

/-- `Lab::squared_distance` of the external `lab` crate: the squared
Euclidean distance between two Lab coordinates. -/
def LabC.squared_distance (p q : LabC) : ℚ :=
  (p.l - q.l) ^ 2 + (p.a - q.a) ^ 2 + (p.b - q.b) ^ 2

/-- The maintained-previous inner loop of main.rs (lines 216-220 and
230-234): `prev` holds the Lab value of the previous pixel, and every
remaining pixel `p` contributes `prev.squared_distance(curr) / 10000.`
where `curr = lab p`.  The RGB→Lab conversion `lab` (`Lab::from_rgb`, from
the external `lab` crate) is kept as a parameter: the claims do not depend
on its internals. -/
def diffGo (lab : Rgb → LabC) : LabC → List Rgb → List ℚ
  | _, [] => []
  | prev, p :: ps => LabC.squared_distance prev (lab p) / 10000 :: diffGo lab (lab p) ps

/-- The distance values produced along one full scan line: the first pixel
only seeds `prev_lab`, each later pixel yields one difference cell. -/
def diffLine (lab : Rgb → LabC) : List Rgb → List ℚ
  | [] => []
  | p :: ps => diffGo lab (lab p) ps

/-- Column `c` of the raster (`img_grid.iter_col(col)`). -/
def colOf (img : List (List Rgb)) (c : Nat) : List Rgb :=
  img.map (fun row => row.getD c (0, 0, 0))

/-- The column-difference grid `diff_grid_x`: `Grid::new(h, w - 1)` filled
row by row with the adjacent horizontal distances (main.rs lines 202,
210-221). -/
def diff_grid_x (lab : Rgb → LabC) (img : List (List Rgb)) (H W : Nat) : Grid :=
  ⟨H, W - 1, img.map (diffLine lab)⟩

/-- The row-difference grid `diff_grid_y`: `Grid::new(h - 1, w)` filled
column by column with the adjacent vertical distances (main.rs lines 203,
224-235).  The column-wise fill is expressed row-major: cell `(r, c)` is
entry `r` of the scan of image column `c`. -/
def diff_grid_y (lab : Rgb → LabC) (img : List (List Rgb)) (H W : Nat) : Grid :=
  ⟨H - 1, W, (List.range (H - 1)).map fun r =>
    (List.range W).map fun c => (diffLine lab (colOf img c)).getD r 0⟩

/-- The raster is a rectangle of `H` rows of `W` pixels each. -/
def Rect (img : List (List Rgb)) (H W : Nat) : Prop :=
  img.length = H ∧ ∀ row ∈ img, row.length = W

/-- Pixel `(r, c)` of the raster. -/
def pxAt (img : List (List Rgb)) (r c : Nat) : Rgb := (img.getD r []).getD c (0, 0, 0)

lemma diffGo_length (lab : Rgb → LabC) (prev : LabC) (ps : List Rgb) :
    (diffGo lab prev ps).length = ps.length := by
  induction ps generalizing prev with
  | nil => rfl
  | cons p ps ih => simp [diffGo, ih]

lemma diffLine_length (lab : Rgb → LabC) (row : List Rgb) :
    (diffLine lab row).length = row.length - 1 := by
  cases row with
  | nil => rfl
  | cons p ps => simp [diffLine, diffGo_length]

lemma diffGo_getD (lab : Rgb → LabC) (p : Rgb) (ps : List Rgb) (c : Nat) (h : c < ps.length) :
    (diffGo lab (lab p) ps).getD c 0 =
      LabC.squared_distance (lab ((p :: ps).getD c (0, 0, 0))) (lab (ps.getD c (0, 0, 0)))
        / 10000 := by
  induction ps generalizing p c with
  | nil => simp at h
  | cons q qs ih =>
    cases c with
    | zero => simp [diffGo]
    | succ c' =>
      have h' : c' < qs.length := by simp at h; omega
      simpa [diffGo] using ih q c' h'

lemma diffLine_getD (lab : Rgb → LabC) (row : List Rgb) (c : Nat) (h : c + 1 < row.length) :
    (diffLine lab row).getD c 0 =
      LabC.squared_distance (lab (row.getD c (0, 0, 0))) (lab (row.getD (c + 1) (0, 0, 0)))
        / 10000 := by
  cases row with
  | nil => simp at h
  | cons p ps =>
    have h' : c < ps.length := by simp at h; omega
    simpa [diffLine] using diffGo_getD lab p ps c h'

lemma colOf_length (img : List (List Rgb)) (c : Nat) : (colOf img c).length = img.length := by
  simp [colOf]

lemma colOf_getD (img : List (List Rgb)) (c r : Nat) (h : r < img.length) :
    (colOf img c).getD r (0, 0, 0) = pxAt img r c := by
  unfold colOf pxAt
  rw [List.getD_eq_getElem _ _ (by simpa using h), List.getElem_map,
    List.getD_eq_getElem _ _ h]

/-! ### Claim C7 -/

/-- C7: for a rectangular `H × W` raster with `H, W ≥ 2`, the
column-difference grid has dimensions `H × (W − 1)` and the row-difference
grid has dimensions `(H − 1) × W`, and in both the stored data matches the
recorded dimensions. -/
theorem diff_grid_dimensions (lab : Rgb → LabC) (img : List (List Rgb)) (H W : Nat)
    (hrect : Rect img H W) (_hH : 2 ≤ H) (_hW : 2 ≤ W) :
    (diff_grid_x lab img H W).rows = H ∧ (diff_grid_x lab img H W).cols = W - 1 ∧
    (diff_grid_x lab img H W).WF ∧
    (diff_grid_y lab img H W).rows = H - 1 ∧ (diff_grid_y lab img H W).cols = W ∧
    (diff_grid_y lab img H W).WF := by
  refine ⟨rfl, rfl, ⟨?_, ?_⟩, rfl, rfl, ⟨?_, ?_⟩⟩
  · simp [diff_grid_x, hrect.1]
  · intro row hrow
    simp only [diff_grid_x, List.mem_map] at hrow
    obtain ⟨row0, hrow0, rfl⟩ := hrow
    rw [diffLine_length, hrect.2 row0 hrow0]
    rfl
  · simp [diff_grid_y]
  · intro row hrow
    simp only [diff_grid_y, List.mem_map] at hrow
    obtain ⟨r, -, rfl⟩ := hrow
    simp
    rfl

/-- A concrete conversion used only to evaluate witnesses: it reads the
three channels as Lab coordinates directly. -/
def labId : Rgb → LabC := fun p => ⟨(p.1 : ℚ), (p.2.1 : ℚ), (p.2.2 : ℚ)⟩

/-- A concrete 2×2 raster. -/
def img2 : List (List Rgb) := [[(0, 0, 0), (255, 0, 0)], [(0, 0, 0), (0, 0, 0)]]

/-- C7 witness: the dimension invariant evaluated on the concrete 2×2
raster. -/
theorem diff_grid_dimensions_witness :
    (diff_grid_x labId img2 2 2).rows = 2 ∧ (diff_grid_x labId img2 2 2).cols = 1 ∧
    (diff_grid_x labId img2 2 2).WF ∧
    (diff_grid_y labId img2 2 2).rows = 1 ∧ (diff_grid_y labId img2 2 2).cols = 2 ∧
    (diff_grid_y labId img2 2 2).WF :=
  diff_grid_dimensions labId img2 2 2 ⟨rfl, by decide⟩ (by norm_num) (by norm_num)

/-! ### Claim C3 -/

/-- C3: each cell of the column-difference grid holds the squared
perceptual distance between a pixel and its right neighbour divided by
10000, stored at the position of the left pixel; each cell of the
row-difference grid holds the squared perceptual distance between a pixel
and the pixel below it divided by 10000, stored at the position of the top
pixel. -/
theorem diff_grid_cells (lab : Rgb → LabC) (img : List (List Rgb)) (H W : Nat)
    (hrect : Rect img H W) (r c : Nat) :
    (r < H → c + 1 < W →
      (diff_grid_x lab img H W).cell r c =
        LabC.squared_distance (lab (pxAt img r c)) (lab (pxAt img r (c + 1))) / 10000) ∧
    (r + 1 < H → c < W →
      (diff_grid_y lab img H W).cell r c =
        LabC.squared_distance (lab (pxAt img r c)) (lab (pxAt img (r + 1) c)) / 10000) := by
  constructor
  · intro hr hc
    have hr' : r < img.length := by rw [hrect.1]; exact hr
    have hmap : (img.map (diffLine lab)).getD r [] = diffLine lab (img.getD r []) := by
      rw [List.getD_eq_getElem _ _ (by simpa using hr'), List.getElem_map,
        List.getD_eq_getElem _ _ hr']
    show ((img.map (diffLine lab)).getD r []).getD c 0 = _
    rw [hmap, diffLine_getD]
    · rfl
    · rw [List.getD_eq_getElem _ _ hr', hrect.2 _ (List.getElem_mem hr')]
      exact hc
  · intro hr hc
    show ((((List.range (H - 1)).map fun r =>
      (List.range W).map fun c => (diffLine lab (colOf img c)).getD r 0).getD r []).getD c 0) = _
    rw [getD_range_map _ _ _ _ (show r < H - 1 by omega),
      getD_range_map _ _ _ _ hc, diffLine_getD]
    · rw [colOf_getD _ _ _ (by rw [hrect.1]; omega),
        colOf_getD _ _ _ (by rw [hrect.1]; omega)]
    · rw [colOf_length, hrect.1]
      omega

/-- C3 witness: the cell formulas evaluated on the concrete 2×2 raster. -/
theorem diff_grid_cells_witness :
    (diff_grid_x labId img2 2 2).cell 0 0 =
      LabC.squared_distance (labId (pxAt img2 0 0)) (labId (pxAt img2 0 1)) / 10000 ∧
    (diff_grid_y labId img2 2 2).cell 0 0 =
      LabC.squared_distance (labId (pxAt img2 0 0)) (labId (pxAt img2 1 0)) / 10000 :=
  ⟨(diff_grid_cells labId img2 2 2 ⟨rfl, by decide⟩ 0 0).1 (by norm_num) (by norm_num),
   (diff_grid_cells labId img2 2 2 ⟨rfl, by decide⟩ 0 0).2 (by norm_num) (by norm_num)⟩

end Dsplit
